import Mathlib

/-!
Shallow embedding of tools/check.py from the cruft-ng repository.

The script builds two reference sets of package names (the live "testing"
set from an external query plus a hard-coded allow-list, and the "stable"
set parsed from a cached package-index snapshot), scans two local
directories ("rules" and "explain") for tracked names, classifies each
local name into current / deprecated / unknown, reports the results and
moves deprecated entries into an archive directory via "git mv".

External effects are modelled explicitly: standard output, directory
creation and the "git mv" calls become events in a trace; the filesystem
seen by glob is a function from directory path to an optional list of
entry names; the exit code of each "git mv" call is an oracle parameter.
Python strings are modelled as Lean strings restricted to their character
lists; the case-mapping used by str.lower is modelled by Char.toLower,
which agrees with Python on ASCII package names.
-/

namespace CruftCheck

/-- Python str.rstrip() with no argument: drop trailing whitespace.
Used on each line read from the package-listing query (line 16). -/
def pyRstrip (s : String) : String :=
  ⟨(s.data.reverse.dropWhile Char.isWhitespace).reverse⟩

/-- Python str.strip() with no argument: drop leading and trailing
whitespace. Used on the remainder of a "Package:" line (line 37). -/
def pyStrip (s : String) : String :=
  ⟨((s.data.dropWhile Char.isWhitespace).reverse.dropWhile Char.isWhitespace).reverse⟩

/-- Python str.lower(): character-wise lower-casing (ASCII fragment,
matching Python on the ASCII package and file names involved). -/
def pyLower (s : String) : String :=
  ⟨s.data.map Char.toLower⟩

/-- Python str.startswith(pre): prefix test on the character list. -/
def strStartsWith (s pre : String) : Bool :=
  pre.data.isPrefixOf s.data

/-- Python line.split(":", 1)[1]: everything after the first colon.
In the source it is only applied to lines that start with "Package:",
which guarantees the colon exists and hence index 1 is in range. -/
def splitColon1Tail (s : String) : String :=
  ⟨(s.data.dropWhile (fun c => c ≠ ':')).drop 1⟩

/-- Python os.path.join(dir, name) for a relative name: concatenation
with a "/" separator. -/
def joinPath (dir name : String) : String :=
  ⟨dir.data ++ '/' :: name.data⟩

/-- Python os.path.basename: the part after the last "/". -/
def basename (p : String) : String :=
  ⟨(p.data.reverse.takeWhile (fun c => c ≠ '/')).reverse⟩

/-- The "testing" set built in lines 11-23: every line of the
package-listing query output, right-stripped, plus the hard-coded
allow-list for RaspBian ("raspberrypi-bootloader", "libraspberrypi0")
and the Google repository ("google-earth-stable"). -/
def testing (queryLines : List String) : Finset String :=
  insert "google-earth-stable"
    (insert "libraspberrypi0"
      (insert "raspberrypi-bootloader"
        (queryLines.foldl (fun s line => insert (pyRstrip line) s) (∅ : Finset String))))

/-- The "stable" set built in lines 33-37: for each line of the cached
index file tools/Packages_amd64 that starts with "Package:", add the
stripped remainder after the first colon. -/
def stable (pkgLines : List String) : Finset String :=
  pkgLines.foldl
    (fun s line =>
      if strStartsWith line "Package:" then
        insert (pyStrip (splitColon1Tail line)) s
      else s) (∅ : Finset String)

/-- The filesystem visible to glob: a directory path maps to the list of
its entry names, or to none when the directory does not exist. -/
def FS : Type := String → Option (List String)

/-- Python glob.glob(dir ++ "/*"): the full paths of the entries of dir,
excluding dot-files (glob never matches a leading dot with "*"); an
absent directory yields the empty list, not an error. -/
def glob (fs : FS) (dir : String) : List String :=
  match fs dir with
  | none => []
  | some names =>
      (names.filter (fun n => ¬ strStartsWith n ".")).map (fun n => joinPath dir n)

/-- Line 40: filters = set(basename(f) for f in glob.glob("rules/*")). -/
def filters (fs : FS) : Finset String :=
  ((glob fs "rules").map basename).toFinset

/-- Line 41: explain = set(basename(f) for f in glob.glob("explain/*")
if f == f.lower()); note the filter compares the whole path, not the
basename. -/
def explain (fs : FS) : Finset String :=
  ((((glob fs "explain").filter (fun f => f == pyLower f)).map basename)).toFinset

/-- Lines 44-46 of process: unknown = packages - testing;
deprecated = unknown & stable; unknown = unknown - stable.
Returns (deprecated, unknown). -/
def classify (packages testing stable : Finset String) :
    Finset String × Finset String :=
  let unknown := packages \ testing
  let deprecated := unknown ∩ stable
  let unknown := unknown \ stable
  (deprecated, unknown)

/-- Lexicographic comparison of character lists by code point, the
order Python uses when comparing strings. -/
def lexLe : List Char → List Char → Bool
  | [], _ => true
  | _ :: _, [] => false
  | a :: as, b :: bs =>
      if a.toNat < b.toNat then true
      else if b.toNat < a.toNat then false
      else lexLe as bs

/-- The string order underlying Python sorted(): lexicographic by code
point on the character sequences. -/
def strLe (a b : String) : Bool :=
  lexLe a.data b.data

instance : IsTrans String (fun a b : String => strLe a b = true) where
  trans := by
    have hch : ∀ (a b : Char) (as bs : List Char),
        lexLe (a :: as) (b :: bs) = true ↔
          (a.toNat < b.toNat ∨
            (¬ a.toNat < b.toNat ∧ ¬ b.toNat < a.toNat ∧ lexLe as bs = true)) := by
      intro a b as bs
      simp only [lexLe]
      split_ifs with h1 h2 <;> simp [*]
    have H : ∀ x y z : List Char,
        lexLe x y = true → lexLe y z = true → lexLe x z = true := by
      intro x
      induction x with
      | nil => intro y z _ _; rfl
      | cons a as ih =>
        intro y z h1 h2
        cases y with
        | nil => simp [lexLe] at h1
        | cons b bs =>
          cases z with
          | nil => simp [lexLe] at h2
          | cons c cs =>
            rw [hch] at h1 h2 ⊢
            rcases h1 with h1 | ⟨h1a, h1b, h1c⟩
            · rcases h2 with h2 | ⟨h2a, h2b, h2c⟩
              · left; omega
              · left; omega
            · rcases h2 with h2 | ⟨h2a, h2b, h2c⟩
              · left; omega
              · exact Or.inr ⟨by omega, by omega, ih bs cs h1c h2c⟩
    intro a b c h1 h2
    exact H a.data b.data c.data h1 h2

instance : IsTotal String (fun a b : String => strLe a b = true) where
  total := by
    have hch : ∀ (a b : Char) (as bs : List Char),
        lexLe (a :: as) (b :: bs) = true ↔
          (a.toNat < b.toNat ∨
            (¬ a.toNat < b.toNat ∧ ¬ b.toNat < a.toNat ∧ lexLe as bs = true)) := by
      intro a b as bs
      simp only [lexLe]
      split_ifs with h1 h2 <;> simp [*]
    have H : ∀ x y : List Char, lexLe x y = true ∨ lexLe y x = true := by
      intro x
      induction x with
      | nil => intro y; left; rfl
      | cons a as ih =>
        intro y
        cases y with
        | nil => right; rfl
        | cons b bs =>
          rcases Nat.lt_trichotomy a.toNat b.toNat with h | h | h
          · left; rw [hch]; exact Or.inl h
          · rcases ih bs with h2 | h2
            · left; rw [hch]; exact Or.inr ⟨by omega, by omega, h2⟩
            · right; rw [hch]; exact Or.inr ⟨by omega, by omega, h2⟩
          · right; rw [hch]; exact Or.inl h
    intro a b
    exact H a.data b.data

instance : IsAntisymm String (fun a b : String => strLe a b = true) where
  antisymm := by
    have hch : ∀ (a b : Char) (as bs : List Char),
        lexLe (a :: as) (b :: bs) = true ↔
          (a.toNat < b.toNat ∨
            (¬ a.toNat < b.toNat ∧ ¬ b.toNat < a.toNat ∧ lexLe as bs = true)) := by
      intro a b as bs
      simp only [lexLe]
      split_ifs with h1 h2 <;> simp [*]
    have H : ∀ x y : List Char, lexLe x y = true → lexLe y x = true → x = y := by
      intro x
      induction x with
      | nil =>
        intro y h1 h2
        cases y with
        | nil => rfl
        | cons b bs => simp [lexLe] at h2
      | cons a as ih =>
        intro y h1 h2
        cases y with
        | nil => simp [lexLe] at h1
        | cons b bs =>
          rw [hch] at h1 h2
          rcases h1 with h1 | ⟨h1a, h1b, h1c⟩
          · rcases h2 with h2 | ⟨h2a, h2b, h2c⟩
            · omega
            · omega
          · rcases h2 with h2 | ⟨h2a, h2b, h2c⟩
            · omega
            · have hn : a.toNat = b.toNat := by omega
              have hab : a = b := Char.ext (UInt32.ext hn)
              rw [hab, ih bs h1c h2c]
    intro a b h1 h2
    cases a with
    | mk da =>
      cases b with
      | mk db => exact congrArg String.mk (H da db h1 h2)

/-- Python sorted() on a set of strings: the unique enumeration of the
set that is ascending in the lexicographic order. -/
def sortedNames (s : Finset String) : List String :=
  s.sort (fun a b : String => strLe a b = true)

/-- One observable step of the script: a line printed to standard
output, a directory creation, or a "git mv" invocation together with
the exit code the call returned (subprocess.call does not raise). -/
inductive Event where
  | printHeader : String → Event
  | printMoved : String → List String → Event
  | makedirs : String → Event
  | gitMv : String → String → Int → Event
  | printUnknown : List String → Event
  | printBlank : Event
deriving DecidableEq

/-- Lines 49-53: the per-item archive loop. For each item: compute
destdir = join("archive", archive); if it is not a directory, create it
(afterwards it exists for the remaining iterations); then call
"git mv" on join(category, item), recording the exit code the oracle
mvExit assigns to the item. Python iterates the set in an unspecified
order; the model enumerates it in the canonical sorted order. -/
def moveEvents (category archive : String) (mvExit : String → Int) :
    List String → Bool → List Event
  | [], _ => []
  | item :: rest, destdirIsDir =>
      (if destdirIsDir then [] else [Event.makedirs (joinPath "archive" archive)])
        ++ Event.gitMv (joinPath category item) (joinPath "archive" archive) (mvExit item)
        :: moveEvents category archive mvExit rest true

/-- Lines 43-54: the whole body of process as an event trace. lbl is
the STABLE release label resolved at line 9 (external to the script);
destdirIsDir says whether the archive destination directory already
exists when the call starts. -/
def process (lbl category : String) (packages testingSet stableSet : Finset String)
    (archive : String) (mvExit : String → Int) (destdirIsDir : Bool) : List Event :=
  let r := classify packages testingSet stableSet
  Event.printHeader category ::
    Event.printMoved lbl (sortedNames r.1) ::
      (moveEvents category archive mvExit (sortedNames r.1) destdirIsDir
        ++ [Event.printUnknown (sortedNames r.2)])

/-- process together with the values the shared reference sets hold
after the call returns. The Python set operators "-" and "&" inside
process allocate new set objects and process never calls a mutating
method on its testing or stable arguments nor rebinds the globals, so
both references come back unchanged. -/
def processR (lbl category : String) (packages testingSet stableSet : Finset String)
    (archive : String) (mvExit : String → Int) (destdirIsDir : Bool) :
    List Event × Finset String × Finset String :=
  (process lbl category packages testingSet stableSet archive mvExit destdirIsDir,
   testingSet, stableSet)

/-- Lines 56-58: run process on the "rules" category, print a blank
line, then run process on the "explain" category. The reference sets
observed by the second call are whatever the first call left behind,
which the model threads explicitly. -/
def mainTrace (lbl : String) (queryLines pkgLines : List String) (fs : FS)
    (mvExit : String → Int) (d1 d2 : Bool) : List Event :=
  let t0 := testing queryLines
  let s0 := stable pkgLines
  let r1 := processR lbl "rules" (filters fs) t0 s0 lbl mvExit d1
  let r2 := processR lbl "explain" (explain fs) r1.2.1 r1.2.2 "explain" mvExit d2
  r1.1 ++ Event.printBlank :: r2.1

/-- Recognizer for the side-effecting archive events (step 5). -/
def isMoveEvent : Event → Bool
  | Event.makedirs _ => true
  | Event.gitMv _ _ _ => true
  | _ => false

/-- Recognizer for the report events (step 4). -/
def isReportEvent : Event → Bool
  | Event.printHeader _ => true
  | Event.printMoved _ _ => true
  | Event.printUnknown _ => true
  | _ => false

/-- The ordering the spec claims for one category run: every report
event is emitted before every archive-move event. -/
def reportsPrecedeMoves (tr : List Event) : Prop :=
  ∀ i j : Fin tr.length,
    isReportEvent (tr.get i) = true → isMoveEvent (tr.get j) = true → i.val < j.val

/-- Forget the exit code a "git mv" call returned, keeping every other
aspect of an event. Two traces equal up to this map have the same
control flow and differ only in what the external calls reported. -/
def eraseExitCode : Event → Event
  | Event.gitMv src dest _ => Event.gitMv src dest 0
  | e => e

/-- A small concrete filesystem used to exercise the case filter: the
explain directory holds one mixed-case and one lower-case entry, the
rules directory holds a mixed-case entry. -/
def exampleFS : FS := fun dir =>
  if dir = "explain" then some ["MyPkg", "mypkg"]
  else if dir = "rules" then some ["MyPkg"]
  else none

theorem strMkData (s : String) : (⟨s.data⟩ : String) = s := by
  cases s
  rfl

theorem sortedNames_eq_of {s : Finset String} {L : List String}
    (h1 : List.Sorted (fun a b : String => strLe a b = true) L)
    (h2 : (L : Multiset String) = s.1) : sortedNames s = L := by
  unfold sortedNames
  refine List.eq_of_perm_of_sorted (Multiset.coe_eq_coe.mp ?_) (Finset.sort_sorted _ s) h1
  rw [Finset.sort_eq, h2]

theorem sortedNames_empty : sortedNames (∅ : Finset String) = [] := by
  unfold sortedNames
  apply Finset.sort_empty

theorem sortedNames_singleton (a : String) : sortedNames {a} = [a] := by
  unfold sortedNames
  apply Finset.sort_singleton

theorem sortedNames_sorted (s : Finset String) :
    List.Sorted (fun a b : String => strLe a b = true) (sortedNames s) := by
  unfold sortedNames
  exact Finset.sort_sorted _ s

theorem mem_sortedNames {s : Finset String} {a : String} :
    a ∈ sortedNames s ↔ a ∈ s := by
  unfold sortedNames
  exact Finset.mem_sort _

theorem classify_fst (L C S : Finset String) :
    (classify L C S).1 = (L \ C) ∩ S := rfl

theorem classify_snd (L C S : Finset String) :
    (classify L C S).2 = (L \ C) \ S := rfl

/-- C1: for all local, current and stable sets the classifier computes
deprecated as the stable part of the unmatched local entries and
unknown as the rest; on L = {a, b, c}, C = {a}, S = {b} this gives
deprecated = {b} and unknown = {c}, and on L = {a, b}, C = {a} with an
empty stable set it gives an empty deprecated set and unknown = {b}. -/
theorem classify_formula_and_examples :
    (∀ L C S : Finset String, classify L C S = ((L \ C) ∩ S, (L \ C) \ S)) ∧
    classify {"a", "b", "c"} {"a"} {"b"} = ({"b"}, {"c"}) ∧
    classify {"a", "b"} {"a"} (∅ : Finset String) = (∅, {"b"}) :=
  ⟨fun _ _ _ => rfl, by decide, by decide⟩

theorem moveEvents_all_moves (cat arch : String) (mv : String → Int) :
    ∀ (items : List String) (b : Bool),
      (moveEvents cat arch mv items b).all isMoveEvent = true := by
  intro items
  induction items with
  | nil => intro b; rfl
  | cons x rest ih =>
    intro b
    cases b <;> simp [moveEvents, isMoveEvent, ih true]

theorem process_shape (lbl cat : String) (p t s : Finset String)
    (a : String) (mv : String → Int) (d : Bool) :
    process lbl cat p t s a mv d =
      Event.printHeader cat ::
        Event.printMoved lbl (sortedNames (classify p t s).1) ::
          (moveEvents cat a mv (sortedNames (classify p t s).1) d ++
            [Event.printUnknown (sortedNames (classify p t s).2)]) := rfl

/-- C3 counterexample: with local set {b, c}, empty current set and
stable set {b}, the run prints the deprecated report, then performs the
archive move of b, and only afterwards prints the unknown report; so it
is false that both reports are emitted before any archive move. -/
theorem process_report_order_counterexample :
    ¬ reportsPrecedeMoves
        (process "trixie" "rules" {"b", "c"} ∅ {"b"} "trixie" (fun _ => 0) true) := by
  have hd : (classify {"b", "c"} ∅ {"b"}).1 = {"b"} := by decide
  have hu : (classify {"b", "c"} ∅ {"b"}).2 = {"c"} := by decide
  have htr : process "trixie" "rules" {"b", "c"} ∅ {"b"} "trixie" (fun _ => 0) true =
      [Event.printHeader "rules", Event.printMoved "trixie" ["b"],
       Event.gitMv (joinPath "rules" "b") (joinPath "archive" "trixie") 0,
       Event.printUnknown ["c"]] := by
    rw [process_shape, hd, hu, sortedNames_singleton, sortedNames_singleton]
    rfl
  rw [htr]
  intro h
  have h32 := h ⟨3, by decide⟩ ⟨2, by decide⟩ (by decide) (by decide)
  exact absurd h32 (by decide)

/-- C3 amended: within one category run the category header and the
deprecated report are emitted before any archive move is performed,
and the unknown report is emitted after all archive moves. -/
theorem process_report_order (lbl cat : String) (p t s : Finset String)
    (a : String) (mv : String → Int) (d : Bool) :
    ∃ moves : List Event,
      process lbl cat p t s a mv d =
        Event.printHeader cat ::
          Event.printMoved lbl (sortedNames (classify p t s).1) ::
            (moves ++ [Event.printUnknown (sortedNames (classify p t s).2)]) ∧
      moves.all isMoveEvent = true :=
  ⟨moveEvents cat a mv (sortedNames (classify p t s).1) d, rfl,
    moveEvents_all_moves cat a mv _ d⟩

/-- C2: deprecated and unknown are disjoint and, together with the
local entries that are still current, they partition the local set. -/
theorem classify_partition (L C S : Finset String) :
    (classify L C S).1 ∩ (classify L C S).2 = ∅ ∧
    (classify L C S).1 ∪ (classify L C S).2 ∪ (L ∩ C) = L := by
  rw [classify_fst, classify_snd]
  constructor
  · ext x
    simp only [Finset.mem_inter, Finset.mem_sdiff, Finset.not_mem_empty, iff_false]
    tauto
  · ext x
    simp only [Finset.mem_union, Finset.mem_inter, Finset.mem_sdiff]
    by_cases hC : x ∈ C <;> by_cases hS : x ∈ S <;> simp [hC, hS]

theorem gitMv_mem_moveEvents (cat arch : String) (mv : String → Int) :
    ∀ (items : List String) (b : Bool) (item : String), item ∈ items →
      Event.gitMv (joinPath cat item) (joinPath "archive" arch) (mv item) ∈
        moveEvents cat arch mv items b := by
  intro items
  induction items with
  | nil => intro b item h; simp at h
  | cons x rest ih =>
    intro b item h
    rcases List.mem_cons.mp h with h | h
    · subst h
      exact List.mem_append_right _ (List.mem_cons_self _ _)
    · exact List.mem_append_right _ (List.mem_cons_of_mem _ (ih true item h))

theorem moveEvents_erase_exit (cat arch : String) (mvA mvB : String → Int) :
    ∀ (items : List String) (b : Bool),
      (moveEvents cat arch mvA items b).map eraseExitCode =
        (moveEvents cat arch mvB items b).map eraseExitCode := by
  intro items
  induction items with
  | nil => intro b; rfl
  | cons x rest ih =>
    intro b
    cases b <;> simp [moveEvents, eraseExitCode] <;> exact ih true

/-- C7: the archive loop is best-effort. Whatever exit codes the
individual "git mv" calls return, a move is attempted for every
deprecated name, the unknown report is still printed afterwards, and
the trace differs from the trace of any other exit-code assignment
only in the recorded exit codes. -/
theorem process_moves_best_effort (lbl cat a : String) (p t s : Finset String)
    (mvA mvB : String → Int) (d : Bool) :
    (∀ item ∈ sortedNames (classify p t s).1,
        Event.gitMv (joinPath cat item) (joinPath "archive" a) (mvA item) ∈
          process lbl cat p t s a mvA d) ∧
    Event.printUnknown (sortedNames (classify p t s).2) ∈
      process lbl cat p t s a mvA d ∧
    (process lbl cat p t s a mvA d).map eraseExitCode =
      (process lbl cat p t s a mvB d).map eraseExitCode := by
  refine ⟨?_, ?_, ?_⟩
  · intro item hitem
    rw [process_shape]
    simp only [List.mem_cons, List.mem_append]
    exact Or.inr (Or.inr (Or.inl (gitMv_mem_moveEvents cat a mvA _ d item hitem)))
  · rw [process_shape]
    simp
  · rw [process_shape, process_shape]
    simp only [List.map_cons, List.map_append]
    rw [moveEvents_erase_exit cat a mvA mvB]

theorem c7_best_effort_witness :
    Event.gitMv (joinPath "rules" "b") (joinPath "archive" "x") 7 ∈
      process "lbl" "rules" {"b"} ∅ {"b"} "x" (fun _ => 7) true ∧
    Event.printUnknown [] ∈ process "lbl" "rules" {"b"} ∅ {"b"} "x" (fun _ => 7) true := by
  have hd : (classify {"b"} ∅ {"b"}).1 = {"b"} := by decide
  have hu : (classify {"b"} ∅ {"b"}).2 = (∅ : Finset String) := by decide
  have h := process_moves_best_effort "lbl" "rules" "x" {"b"} ∅ {"b"}
    (fun _ => 7) (fun _ => 0) true
  constructor
  · exact h.1 "b" (by rw [hd, sortedNames_singleton]; decide)
  · have := h.2.1
    rw [hu, sortedNames_empty] at this
    exact this

theorem sortedNames_nodup (s : Finset String) : (sortedNames s).Nodup := by
  unfold sortedNames
  exact Finset.sort_nodup _ s

/-- C8: the per-category report carries the deprecated and the unknown
sets as duplicate-free sequences sorted in ascending lexicographic
order on the package name, characterized exactly by membership in the
corresponding classified set; the output is therefore a function of
the sets alone. -/
theorem process_reports_sorted (lbl cat a : String) (p t s : Finset String)
    (mv : String → Int) (d : Bool) :
    ∃ dl ul : List String,
      Event.printMoved lbl dl ∈ process lbl cat p t s a mv d ∧
      Event.printUnknown ul ∈ process lbl cat p t s a mv d ∧
      List.Sorted (fun x y : String => strLe x y = true) dl ∧
      List.Sorted (fun x y : String => strLe x y = true) ul ∧
      dl.Nodup ∧ ul.Nodup ∧
      (∀ x, x ∈ dl ↔ x ∈ (classify p t s).1) ∧
      (∀ x, x ∈ ul ↔ x ∈ (classify p t s).2) := by
  refine ⟨sortedNames (classify p t s).1, sortedNames (classify p t s).2, ?_, ?_,
    sortedNames_sorted _, sortedNames_sorted _, sortedNames_nodup _, sortedNames_nodup _,
    fun x => mem_sortedNames, fun x => mem_sortedNames⟩
  · rw [process_shape]
    simp
  · rw [process_shape]
    simp

theorem glob_none {fs : FS} {dir : String} (h : fs dir = none) : glob fs dir = [] := by
  unfold glob
  rw [h]

theorem process_empty_packages (lbl cat archive : String) (t s : Finset String)
    (mv : String → Int) (d : Bool) :
    process lbl cat ∅ t s archive mv d =
      [Event.printHeader cat, Event.printMoved lbl [], Event.printUnknown []] := by
  have h1 : (classify ∅ t s).1 = ∅ := by rw [classify_fst]; simp
  have h2 : (classify ∅ t s).2 = ∅ := by rw [classify_snd]; simp
  rw [process_shape, h1, h2, sortedNames_empty]
  rfl

/-- C9: when a category directory does not exist, the inventory scan
for that category yields the empty set instead of failing, and the
category is still processed, producing a report with two empty lists
and no archive moves. -/
theorem missing_category_dir (fs : FS) (lbl : String) (t s : Finset String)
    (mv : String → Int) (d : Bool)
    (hr : fs "rules" = none) (he : fs "explain" = none) :
    filters fs = ∅ ∧ explain fs = ∅ ∧
    process lbl "rules" (filters fs) t s lbl mv d =
      [Event.printHeader "rules", Event.printMoved lbl [], Event.printUnknown []] ∧
    process lbl "explain" (explain fs) t s "explain" mv d =
      [Event.printHeader "explain", Event.printMoved lbl [], Event.printUnknown []] := by
  have hf : filters fs = ∅ := by
    unfold filters
    rw [glob_none hr]
    rfl
  have hx : explain fs = ∅ := by
    unfold explain
    rw [glob_none he]
    rfl
  refine ⟨hf, hx, ?_, ?_⟩
  · rw [hf]; exact process_empty_packages lbl "rules" lbl t s mv d
  · rw [hx]; exact process_empty_packages lbl "explain" "explain" t s mv d

theorem missing_category_dir_witness :
    filters (fun _ => none) = ∅ ∧ explain (fun _ => none) = ∅ ∧
    process "lbl" "rules" (filters (fun _ => none)) ∅ ∅ "lbl" (fun _ => 0) true =
      [Event.printHeader "rules", Event.printMoved "lbl" [], Event.printUnknown []] ∧
    process "lbl" "explain" (explain (fun _ => none)) ∅ ∅ "explain" (fun _ => 0) true =
      [Event.printHeader "explain", Event.printMoved "lbl" [], Event.printUnknown []] :=
  missing_category_dir (fun _ => none) "lbl" ∅ ∅ (fun _ => 0) true rfl rfl

theorem stable_foldl_union (g : String → String)
    (p : String → Bool) :
    ∀ (lines : List String) (acc : Finset String),
      lines.foldl (fun s line => if p line then insert (g line) s else s) acc =
        acc ∪ ((lines.filter p).map g).toFinset := by
  intro lines
  induction lines with
  | nil => intro acc; simp
  | cons l rest ih =>
    intro acc
    rw [List.foldl_cons]
    by_cases h : p l
    · rw [ih (if p l then insert (g l) acc else acc)]
      simp only [h, if_true, List.filter_cons, List.map_cons, List.toFinset_cons]
      ext x
      simp only [Finset.mem_union, Finset.mem_insert, List.mem_toFinset]
      tauto
    · rw [ih (if p l then insert (g l) acc else acc)]
      simp [h, List.filter_cons]

/-- C6: the stable set is exactly the set of stripped remainders after
the first colon of the lines that start with "Package:"; other lines
contribute nothing, and an input with no such line yields the empty
set (the parse is total, so nothing is raised). -/
theorem stable_parses_package_lines (pkgLines : List String) :
    stable pkgLines =
      ((pkgLines.filter (fun l => strStartsWith l "Package:")).map
        (fun l => pyStrip (splitColon1Tail l))).toFinset ∧
    ((∀ l ∈ pkgLines, strStartsWith l "Package:" = false) → stable pkgLines = ∅) := by
  have h := stable_foldl_union (fun l => pyStrip (splitColon1Tail l))
    (fun l => strStartsWith l "Package:") pkgLines ∅
  constructor
  · rw [stable, h, Finset.empty_union]
  · intro hall
    rw [stable, h, Finset.empty_union]
    have : pkgLines.filter (fun l => strStartsWith l "Package:") = [] := by
      rw [List.filter_eq_nil_iff]
      intro a ha
      rw [hall a ha]
      simp
    rw [this]
    rfl

theorem stable_parses_package_lines_witness :
    stable ["Version: 1", "Package: foo ", "x"] = {"foo"} ∧
    ((∀ l ∈ ["Version: 1", "x"], strStartsWith l "Package:" = false) ∧
      stable ["Version: 1", "x"] = ∅) := by
  constructor
  · rw [(stable_parses_package_lines ["Version: 1", "Package: foo ", "x"]).1]
    decide
  · exact ⟨by decide,
      (stable_parses_package_lines ["Version: 1", "x"]).2 (by decide)⟩

theorem joinPath_inj_right {dir a b : String} (h : joinPath dir a = joinPath dir b) :
    a = b := by
  have hd : dir.data ++ '/' :: a.data = dir.data ++ '/' :: b.data := congrArg String.data h
  have hc : a.data = b.data := (List.cons.injEq _ _ _ _).mp (List.append_cancel_left hd) |>.2
  cases a with
  | mk da =>
    cases b with
    | mk db => exact congrArg String.mk hc

theorem gitMv_src_of_mem_moveEvents {cat arch : String} {mv : String → Int} :
    ∀ {items : List String} {b : Bool} {src dest : String} {code : Int},
      Event.gitMv src dest code ∈ moveEvents cat arch mv items b →
      ∃ item ∈ items, src = joinPath cat item := by
  intro items
  induction items with
  | nil => intro b src dest code h; simp [moveEvents] at h
  | cons x rest ih =>
    intro b src dest code h
    rcases List.mem_append.mp h with h | h
    · cases b <;> simp [Event.gitMv.injEq] at h
    · rcases List.mem_cons.mp h with h | h
      · refine ⟨x, List.mem_cons_self x rest, ?_⟩
        exact ((Event.gitMv.injEq _ _ _ _ _ _).mp h).1
      · obtain ⟨item, hitem, hsrc⟩ := ih h
        exact ⟨item, List.mem_cons_of_mem x hitem, hsrc⟩

theorem not_archived_of_not_deprecated {lbl cat a : String} {p t s : Finset String}
    {mv : String → Int} {d : Bool} {name : String}
    (h : name ∉ (classify p t s).1) :
    ∀ dest code, Event.gitMv (joinPath cat name) dest code ∉
      process lbl cat p t s a mv d := by
  intro dest code hmem
  rw [process_shape] at hmem
  rcases List.mem_cons.mp hmem with hq | hmem
  · exact absurd hq (by simp)
  rcases List.mem_cons.mp hmem with hq | hmem
  · exact absurd hq (by simp)
  rcases List.mem_append.mp hmem with hq | hq
  · obtain ⟨item, hitem, hsrc⟩ := gitMv_src_of_mem_moveEvents hq
    rw [joinPath_inj_right hsrc] at h
    exact h (mem_sortedNames.mp hitem)
  · rcases List.mem_cons.mp hq with hq | hq
    · exact absurd hq (by simp)
    · simp at hq

/-- C5: the three hard-coded allow-list names are members of the
current set whatever the package-listing query emitted, so a local
entry with one of these names is classified as current: it lands in
neither the deprecated nor the unknown set and no archive move for it
ever appears in the trace. -/
theorem allowlist_always_current (queryLines : List String) (p s : Finset String)
    (name lbl cat archive : String) (mv : String → Int) (d : Bool)
    (h : name = "raspberrypi-bootloader" ∨ name = "libraspberrypi0" ∨
      name = "google-earth-stable") :
    name ∈ testing queryLines ∧
    name ∉ (classify p (testing queryLines) s).1 ∧
    name ∉ (classify p (testing queryLines) s).2 ∧
    ∀ dest code, Event.gitMv (joinPath cat name) dest code ∉
      process lbl cat p (testing queryLines) s archive mv d := by
  have hmem : name ∈ testing queryLines := by
    unfold testing
    rcases h with h | h | h <;> subst h <;> simp
  have hnd : name ∉ (classify p (testing queryLines) s).1 := by
    rw [classify_fst]
    simp only [Finset.mem_inter, Finset.mem_sdiff, not_and]
    intro hx
    exact absurd hmem hx.2
  have hnu : name ∉ (classify p (testing queryLines) s).2 := by
    rw [classify_snd]
    simp only [Finset.mem_sdiff, not_and]
    intro hx
    exact absurd hmem hx.2
  exact ⟨hmem, hnd, hnu, not_archived_of_not_deprecated hnd⟩

theorem allowlist_always_current_witness :
    "google-earth-stable" ∈ testing [] ∧
    "google-earth-stable" ∉ (classify {"google-earth-stable"} (testing []) ∅).1 ∧
    "google-earth-stable" ∉ (classify {"google-earth-stable"} (testing []) ∅).2 ∧
    ∀ dest code,
      Event.gitMv (joinPath "rules" "google-earth-stable") dest code ∉
        process "lbl" "rules" {"google-earth-stable"} (testing []) ∅ "lbl"
          (fun _ => 0) true :=
  allowlist_always_current [] {"google-earth-stable"} ∅ "google-earth-stable"
    "lbl" "rules" "lbl" (fun _ => 0) true (Or.inr (Or.inr rfl))

/-- C10: one category run leaves the shared reference sets unchanged
(the set operations build new sets), so the full program runs the
second category against exactly the same current and stable sets as
the first. -/
theorem process_preserves_reference_sets (lbl : String)
    (queryLines pkgLines : List String) (fs : FS)
    (mv : String → Int) (d1 d2 : Bool) :
    (∀ (cat a : String) (p : Finset String) (d : Bool),
      (processR lbl cat p (testing queryLines) (stable pkgLines) a mv d).2 =
        (testing queryLines, stable pkgLines)) ∧
    mainTrace lbl queryLines pkgLines fs mv d1 d2 =
      process lbl "rules" (filters fs) (testing queryLines) (stable pkgLines)
          lbl mv d1 ++
        Event.printBlank ::
          process lbl "explain" (explain fs) (testing queryLines) (stable pkgLines)
            "explain" mv d2 :=
  ⟨fun _ _ _ _ => rfl, rfl⟩

theorem mem_of_mem_takeWhile {p : Char → Bool} :
    ∀ {l : List Char} {c : Char}, c ∈ l.takeWhile p → c ∈ l := by
  intro l
  induction l with
  | nil => intro c hc; simp at hc
  | cons a as ih =>
    intro c hc
    rw [List.takeWhile_cons] at hc
    by_cases ha : p a
    · rw [if_pos ha] at hc
      rcases List.mem_cons.mp hc with hc | hc
      · exact hc ▸ List.mem_cons_self a as
      · exact List.mem_cons_of_mem a (ih hc)
    · rw [if_neg ha] at hc
      simp at hc

theorem takeWhile_append_all {p : Char → Bool} :
    ∀ {xs : List Char} {y : Char} {ys : List Char},
      (∀ x ∈ xs, p x = true) → p y = false →
      (xs ++ y :: ys).takeWhile p = xs := by
  intro xs
  induction xs with
  | nil => intro y ys _ hy; simp [List.takeWhile_cons, hy]
  | cons a as ih =>
    intro y ys hall hy
    have ha : p a = true := hall a (List.mem_cons_self a as)
    simp only [List.cons_append, List.takeWhile_cons, ha, if_true]
    rw [ih (fun x hx => hall x (List.mem_cons_of_mem a hx)) hy]

theorem basename_joinPath (dir n : String) (h : '/' ∉ n.data) :
    basename (joinPath dir n) = n := by
  have h1 : (joinPath dir n).data.reverse = n.data.reverse ++ '/' :: dir.data.reverse := by
    show (dir.data ++ '/' :: n.data).reverse = _
    rw [List.reverse_append, List.reverse_cons, List.append_assoc]
    rfl
  have h2 : (joinPath dir n).data.reverse.takeWhile (fun c => c ≠ '/') = n.data.reverse := by
    rw [h1]
    apply takeWhile_append_all
    · intro x hx
      simp only [decide_eq_true_eq]
      intro heq
      exact h (heq ▸ List.mem_reverse.mp hx)
    · simp
  show (⟨((joinPath dir n).data.reverse.takeWhile (fun c => c ≠ '/')).reverse⟩ : String) = n
  rw [h2, List.reverse_reverse, strMkData]

theorem map_eq_self_mem {f : Char → Char} :
    ∀ {l : List Char}, l.map f = l → ∀ c ∈ l, f c = c := by
  intro l
  induction l with
  | nil => intro _ c hc; simp at hc
  | cons a as ih =>
    intro h c hc
    rw [List.map_cons] at h
    have h1 := (List.cons.injEq _ _ _ _).mp h
    rcases List.mem_cons.mp hc with hc | hc
    · rw [hc]; exact h1.1
    · exact ih h1.2 c hc

theorem basename_lower_fixed {f : String} (h : f = pyLower f) :
    basename f = pyLower (basename f) := by
  have hd : f.data.map Char.toLower = f.data := (congrArg String.data h).symm
  have hpt : ∀ c ∈ f.data, Char.toLower c = c := map_eq_self_mem hd
  have hsub : ∀ c ∈ (basename f).data, c ∈ f.data := by
    intro c hc
    have hc1 : c ∈ f.data.reverse.takeWhile (fun c => c ≠ '/') := List.mem_reverse.mp hc
    exact List.mem_reverse.mp (mem_of_mem_takeWhile hc1)
  have hmap : (basename f).data.map Char.toLower = (basename f).data := by
    rw [List.map_congr_left (fun c hc => hpt c (hsub c hc))]
    exact List.map_id _
  show basename f = (⟨(basename f).data.map Char.toLower⟩ : String)
  rw [hmap, strMkData]

theorem pyLower_joinPath {dir : String} (n : String) (hdir : pyLower dir = dir) :
    pyLower (joinPath dir n) = joinPath dir (pyLower n) := by
  have hd : dir.data.map Char.toLower = dir.data := congrArg String.data hdir
  show (⟨(dir.data ++ '/' :: n.data).map Char.toLower⟩ : String) =
    ⟨dir.data ++ '/' :: n.data.map Char.toLower⟩
  rw [List.map_append, List.map_cons, hd,
    show Char.toLower '/' = '/' from by decide]

theorem mem_explain {fs : FS} {x : String} :
    x ∈ explain fs ↔
      ∃ f, f ∈ glob fs "explain" ∧ f = pyLower f ∧ basename f = x := by
  unfold explain
  simp only [List.mem_toFinset, List.mem_map, List.mem_filter, beq_iff_eq]
  constructor
  · rintro ⟨f, ⟨hg, hf⟩, hb⟩
    exact ⟨f, hg, hf, hb⟩
  · rintro ⟨f, hg, hf, hb⟩
    exact ⟨f, ⟨hg, hf⟩, hb⟩

theorem mem_filters {fs : FS} {x : String} :
    x ∈ filters fs ↔ ∃ f, f ∈ glob fs "rules" ∧ basename f = x := by
  unfold filters
  simp only [List.mem_toFinset, List.mem_map]

theorem mem_glob_of {fs : FS} {dir : String} {l : List String} {n : String}
    (hfs : fs dir = some l) (hn : n ∈ l) (hdot : strStartsWith n "." = false) :
    joinPath dir n ∈ glob fs dir := by
  unfold glob
  rw [hfs]
  simp only [List.mem_map, List.mem_filter]
  refine ⟨n, ⟨hn, ?_⟩, rfl⟩
  simp [hdot]

theorem classify_fst_subset (L C S : Finset String) : (classify L C S).1 ⊆ L := by
  rw [classify_fst]
  intro x hx
  exact (Finset.mem_sdiff.mp (Finset.mem_of_mem_inter_left hx)).1

theorem classify_snd_subset (L C S : Finset String) : (classify L C S).2 ⊆ L := by
  rw [classify_snd]
  intro x hx
  exact (Finset.mem_sdiff.mp (Finset.mem_sdiff.mp hx).1).1

/-- C4: the explain category keeps only entries whose path equals its
own lower-casing. An entry whose name is not all-lowercase is dropped
from the inventory, hence appears in neither report list and is never
the source of an archive move; an all-lowercase entry listed in the
directory is inventoried; the rules category applies no case filter. -/
theorem explain_case_filter (fs : FS) (name lbl : String) (t s : Finset String)
    (mv : String → Int) (d : Bool) (hsep : '/' ∉ name.data) :
    (name ≠ pyLower name →
      name ∉ explain fs ∧
      name ∉ sortedNames (classify (explain fs) t s).1 ∧
      name ∉ sortedNames (classify (explain fs) t s).2 ∧
      ∀ dest code, Event.gitMv (joinPath "explain" name) dest code ∉
        process lbl "explain" (explain fs) t s "explain" mv d) ∧
    (∀ l, fs "explain" = some l → name ∈ l → strStartsWith name "." = false →
      name = pyLower name → name ∈ explain fs) ∧
    (∀ l, fs "rules" = some l → name ∈ l → strStartsWith name "." = false →
      name ∈ filters fs) := by
  refine ⟨?_, ?_, ?_⟩
  · intro hup
    have hnot : name ∉ explain fs := by
      intro hmem
      obtain ⟨f, _, hf, hb⟩ := mem_explain.mp hmem
      have hfix := basename_lower_fixed hf
      rw [hb] at hfix
      exact hup hfix
    have hnd : name ∉ (classify (explain fs) t s).1 :=
      fun hm => hnot (classify_fst_subset (explain fs) t s hm)
    have hnu : name ∉ (classify (explain fs) t s).2 :=
      fun hm => hnot (classify_snd_subset (explain fs) t s hm)
    exact ⟨hnot, fun hm => hnd (mem_sortedNames.mp hm),
      fun hm => hnu (mem_sortedNames.mp hm),
      not_archived_of_not_deprecated hnd⟩
  · intro l hfs hn hdot hlow
    refine mem_explain.mpr ⟨joinPath "explain" name, mem_glob_of hfs hn hdot, ?_, ?_⟩
    · conv_lhs => rw [hlow]
      rw [pyLower_joinPath name (show pyLower "explain" = "explain" from by decide)]
    · exact basename_joinPath "explain" name hsep
  · intro l hfs hn hdot
    exact mem_filters.mpr ⟨joinPath "rules" name, mem_glob_of hfs hn hdot,
      basename_joinPath "rules" name hsep⟩

theorem explain_case_filter_witness :
    ('/' ∉ "MyPkg".data) ∧ ('/' ∉ "mypkg".data) ∧
    "MyPkg" ∉ explain exampleFS ∧
    "mypkg" ∈ explain exampleFS ∧
    "MyPkg" ∈ filters exampleFS := by
  have hA := explain_case_filter exampleFS "MyPkg" "lbl" ∅ ∅ (fun _ => 0) true (by decide)
  have hB := explain_case_filter exampleFS "mypkg" "lbl" ∅ ∅ (fun _ => 0) true (by decide)
  refine ⟨by decide, by decide, (hA.1 (by decide)).1, ?_, ?_⟩
  · exact hB.2.1 ["MyPkg", "mypkg"] (by decide) (by decide) (by decide) (by decide)
  · exact hA.2.2 ["MyPkg"] (by decide) (by decide) (by decide)

end CruftCheck
